import Mathlib

/-!
Verification of the jump-starter questionnaire validator.

A shallow embedding of `src/jump_starter/models.py`: the node model
(Template, Answer, Question, Case, Switch, Questionnaire), the recursive
`walk` of `Questionnaire.validate_and_build_id_map` that builds the
identifier registry and collects reference events, the post-walk reference
check, and theorems about the resulting validation behaviour.

Python-specific conventions modelled explicitly:
* optional string fields are `Option String`; Python truthiness (`if node.id:`)
  treats both `None` and the empty string as false, captured by `truthyStr`;
* the Python `dict` is modelled as an insertion-ordered association list
  (`dictLookup` finds the first binding; the validator only inserts a key
  that is not yet present, so keys stay unique exactly as in a `dict`);
* the `ValidationError` raised on failure is modelled as `Except.error`
  carrying the accumulated list of violations, so a failed validation
  produces no `Questionnaire` value, as in the source where construction
  does not complete.
-/

/-- A structural location segment: a field name or a sequence index,
mirroring the tuples such as `(*loc, "questions", i)` in the source. -/
inductive Seg where
  | field : String → Seg
  | idx : Nat → Seg
deriving DecidableEq, Repr

/-- Model of `class Template`: a template for code replacement. -/
structure Template where
  replacement : String
  code : String
deriving DecidableEq, Repr

/-- Model of `class Answer`: an answer to a question. -/
structure Answer where
  answer : String
  tooltip : String := ""
  templates : List Template := []
  goto : Option String := none
  commentary : String := ""
deriving DecidableEq, Repr

/-- Model of `class Question`: a question in the questionnaire.  The Python field
`variable` is called `var` here because `variable` is a Lean keyword. -/
structure Question where
  question : String
  id : Option String := none
  var : Option String := none
  answers : List Answer
  next_question : Option String := none
deriving DecidableEq, Repr

mutual
/-- A tree node: the union `Question | Switch` used in the question lists. -/
inductive Node where
  | question : Question → Node
  | switch : Switch → Node

/-- Model of `class Switch`: a switch statement in the questionnaire. -/
inductive Switch where
  | mk : String → Option String → List Case → Switch

/-- Model of `class Case`: a case in a switch statement. -/
inductive Case where
  | mk : Option Int → List Node → Case
end

/-- The `switch` field of a `Switch` (the expression being branched on). -/
def Switch.switch : Switch → String
  | .mk s _ _ => s

/-- The optional `id` field of a `Switch`. -/
def Switch.id : Switch → Option String
  | .mk _ i _ => i

/-- The `cases` field of a `Switch`. -/
def Switch.cases : Switch → List Case
  | .mk _ _ cs => cs

/-- The optional `value` field of a `Case`. -/
def Case.value : Case → Option Int
  | .mk v _ => v

/-- The `questions` field of a `Case`. -/
def Case.questions : Case → List Node
  | .mk _ qs => qs

/-- Python truthiness for an optional string: `None` and `""` are falsy.
`truthyStr o = some s` exactly when the Python test `if o:` succeeds. -/
def truthyStr : Option String → Option String
  | none => none
  | some s => if s = "" then none else some s

/-- A validation violation, tagged with its kind, structural location and
the offending identifier, mirroring the two `PydanticCustomError`s
(`duplicate_id` with message `Duplicate id`, `invalid_reference` with
message `Unknown reference`) of the source. -/
inductive Violation where
  | duplicate_id : List Seg → String → Violation
  | invalid_reference : List Seg → String → Violation
deriving DecidableEq, Repr

/-- Lookup in the insertion-ordered association list modelling the Python
`dict`: returns the first binding of the key. -/
def dictLookup : List (String × Node) → String → Option Node
  | [], _ => none
  | (k, v) :: rest, key => if k = key then some v else dictLookup rest key

/-- The mutable state threaded through `walk` in the source:
the `errors` list, the `id_to_node` dict and the `refs` list. -/
structure WalkState where
  errors : List Violation
  id_to_node : List (String × Node)
  refs : List (List Seg × String)

/-- Line 94 of the source, `id = node.id if node.id else node.question`:
the effective identifier of a Question is its explicit `id` when that is
truthy, else the literal question text. -/
def effectiveId (q : Question) : String :=
  match truthyStr q.id with
  | some s => s
  | none => q.question

/-- Processing of one id declaration (`if id in id_to_node: ... else:
id_to_node[id] = node`, lines 95–104 and 116–125 of the source): flag a
duplicate at `loc + ("id",)` or insert the binding. -/
def declareId (st : WalkState) (node_loc : List Seg) (id : String) (node : Node) :
    WalkState :=
  if (dictLookup st.id_to_node id).isSome then
    { st with errors := st.errors ++ [.duplicate_id (node_loc ++ [.field "id"]) id] }
  else
    { st with id_to_node := st.id_to_node ++ [(id, node)] }

/-- The `for j, ans in enumerate(node.answers)` loop of the source:
append a reference event for every truthy `goto`. -/
def walkAnswers (answers : List Answer) (node_loc : List Seg) (j : Nat)
    (st : WalkState) : WalkState :=
  match answers with
  | [] => st
  | ans :: rest =>
      let st :=
        match truthyStr ans.goto with
        | some g =>
            { st with
              refs := st.refs ++ [(node_loc ++ [.field "answers", .idx j, .field "goto"], g)] }
        | none => st
      walkAnswers rest node_loc (j + 1) st

mutual
/-- The `def walk(nodes, loc)` of the source: iterate over the node list
(`for i, node in enumerate(nodes)`), the counter `i` made explicit. -/
def walk (nodes : List Node) (loc : List Seg) (i : Nat) (st : WalkState) :
    WalkState :=
  match nodes with
  | [] => st
  | node :: rest =>
      let node_loc := loc ++ [.field "questions", .idx i]
      walk rest loc (i + 1) (walkNode node node_loc st)

/-- The body of the `for` loop of `walk`: handle one `Question` or `Switch`
node at location `node_loc`. -/
def walkNode (node : Node) (node_loc : List Seg) (st : WalkState) : WalkState :=
  match node with
  | .question q =>
      let id := effectiveId q
      let st := declareId st node_loc id (.question q)
      let st :=
        match truthyStr q.next_question with
        | some nq =>
            { st with refs := st.refs ++ [(node_loc ++ [.field "next_question"], nq)] }
        | none => st
      walkAnswers q.answers node_loc 0 st
  | .switch (.mk sw sid cs) =>
      let st :=
        match truthyStr sid with
        | some s0 => declareId st node_loc s0 (.switch (.mk sw sid cs))
        | none => st
      walkCases cs node_loc 0 st

/-- The `for k, case in enumerate(node.cases)` loop of the source:
recurse into each case with location `node_loc + ("cases", k)`. -/
def walkCases (cases : List Case) (node_loc : List Seg) (k : Nat)
    (st : WalkState) : WalkState :=
  match cases with
  | [] => st
  | .mk _ qs :: rest =>
      let st := walk qs (node_loc ++ [.field "cases", .idx k]) 0 st
      walkCases rest node_loc (k + 1) st
end

/-- Model of `class Questionnaire`: the top-level container.  `question_map` models
the private `_question_map` attribute (empty by default, set on success). -/
structure Questionnaire where
  initial_template : String
  initial_commentary : String := ""
  feedback_url : Option String := none
  questions : List Node
  question_map : List (String × Node) := []

/-- The body of `Questionnaire.validate_and_build_id_map` up to the final
`if errors:` decision: run the walk from the empty location on the root
question list, then check every collected reference against the completed
registry (lines 135–147).  Returns the accumulated error list and the
registry. -/
def runValidation (self : Questionnaire) :
    List Violation × List (String × Node) :=
  let st := walk self.questions [] 0 ⟨[], [], []⟩
  let errors := st.errors ++
    st.refs.filterMap (fun r =>
      if (dictLookup st.id_to_node r.2).isSome then none
      else some (.invalid_reference r.1 r.2))
  (errors, st.id_to_node)

/-- Model of `Questionnaire.validate_and_build_id_map` (lines 81–155): on any
violation raise a structured error carrying all violations (construction
does not complete); otherwise publish the identifier map and return the
questionnaire. -/
def validate_and_build_id_map (self : Questionnaire) :
    Except (List Violation) Questionnaire :=
  let r := runValidation self
  if r.1.isEmpty then
    .ok { self with question_map := r.2 }
  else
    .error r.1

/-- Lookup of a declared identifier in the published identifier map.
Modelled from the spec: the source exposes the map as the private
attribute `_question_map`; the spec names the lookup operation
`get_node(identifier) -> Question | Switch | not-found`. -/
def get_node (self : Questionnaire) (id : String) : Option Node :=
  dictLookup self.question_map id

/-! ## Event streams of the walk

Pure, state-free collectors that follow the recursion of `walk` exactly
and list, in traversal order, the id-declaration events and the reference
events the walk produces.  They serve as the specification against which
the stateful `walk` is characterised below. -/

/-- An id-declaration event: the location of the declaring node, the
effective identifier it declares, and the node itself. -/
structure DeclEvent where
  loc : List Seg
  key : String
  node : Node

/-- The `goto` reference events of an answer list, in order. -/
def answerRefs (answers : List Answer) (node_loc : List Seg) (j : Nat) :
    List (List Seg × String) :=
  match answers with
  | [] => []
  | ans :: rest =>
      (match truthyStr ans.goto with
       | some g => [(node_loc ++ [Seg.field "answers", Seg.idx j, Seg.field "goto"], g)]
       | none => []) ++ answerRefs rest node_loc (j + 1)

/-- The reference events of a single Question: the `next_question`
reference when truthy, then the `goto` references of its answers. -/
def questionRefs (q : Question) (node_loc : List Seg) : List (List Seg × String) :=
  (match truthyStr q.next_question with
   | some nq => [(node_loc ++ [Seg.field "next_question"], nq)]
   | none => []) ++ answerRefs q.answers node_loc 0

mutual
/-- The id-declaration events of a node list, in traversal order. -/
def declEvents (nodes : List Node) (loc : List Seg) (i : Nat) : List DeclEvent :=
  match nodes with
  | [] => []
  | node :: rest =>
      nodeDecls node (loc ++ [Seg.field "questions", Seg.idx i]) ++
        declEvents rest loc (i + 1)

/-- The id-declaration events of one node: a Question always declares its
effective identifier; a Switch declares its `id` only when truthy, then
contributes the declarations nested in its cases. -/
def nodeDecls (node : Node) (node_loc : List Seg) : List DeclEvent :=
  match node with
  | .question q => [⟨node_loc, effectiveId q, .question q⟩]
  | .switch (.mk sw sid cs) =>
      (match truthyStr sid with
       | some s0 => [⟨node_loc, s0, .switch (.mk sw sid cs)⟩]
       | none => []) ++ caseDecls cs node_loc 0

/-- The id-declaration events nested in the cases of a Switch. -/
def caseDecls (cases : List Case) (node_loc : List Seg) (k : Nat) : List DeclEvent :=
  match cases with
  | [] => []
  | .mk _ qs :: rest =>
      declEvents qs (node_loc ++ [Seg.field "cases", Seg.idx k]) 0 ++
        caseDecls rest node_loc (k + 1)
end

mutual
/-- The reference events of a node list, in traversal order. -/
def refEvents (nodes : List Node) (loc : List Seg) (i : Nat) :
    List (List Seg × String) :=
  match nodes with
  | [] => []
  | node :: rest =>
      nodeRefs node (loc ++ [Seg.field "questions", Seg.idx i]) ++
        refEvents rest loc (i + 1)

/-- The reference events of one node. -/
def nodeRefs (node : Node) (node_loc : List Seg) : List (List Seg × String) :=
  match node with
  | .question q => questionRefs q node_loc
  | .switch (.mk _ _ cs) => caseRefs cs node_loc 0

/-- The reference events nested in the cases of a Switch. -/
def caseRefs (cases : List Case) (node_loc : List Seg) (k : Nat) :
    List (List Seg × String) :=
  match cases with
  | [] => []
  | .mk _ qs :: rest =>
      refEvents qs (node_loc ++ [Seg.field "cases", Seg.idx k]) 0 ++
        caseRefs rest node_loc (k + 1)
end

/-! ## The identifier registry as a fold over declaration events -/

/-- The registry part of the walk state: accumulated errors and the
id-to-node dict. -/
structure Registry where
  errors : List Violation
  id_to_node : List (String × Node)

/-- The `DuplicateIdentifier` violation recorded for a declaration event
whose key is already bound: located at the declaring node plus `id`. -/
def dupViolation (e : DeclEvent) : Violation :=
  .duplicate_id (e.loc ++ [Seg.field "id"]) e.key

/-- One registry update: flag a duplicate or insert the binding, exactly
as `declareId` does on the registry part of the walk state. -/
def declStep (r : Registry) (e : DeclEvent) : Registry :=
  if (dictLookup r.id_to_node e.key).isSome then
    { r with errors := r.errors ++ [dupViolation e] }
  else
    { r with id_to_node := r.id_to_node ++ [(e.key, e.node)] }

/-- The registry obtained by processing a list of declaration events. -/
def buildRegistry (r : Registry) (es : List DeclEvent) : Registry :=
  es.foldl declStep r

/-- The declaration events that get flagged as duplicates: an event is
flagged exactly when its key was seen before it (in `seen` initially, or
earlier in the list). -/
def dupOccs (seen : List String) : List DeclEvent → List DeclEvent
  | [] => []
  | e :: rest =>
      if e.key ∈ seen then e :: dupOccs seen rest
      else dupOccs (e.key :: seen) rest

/-- The bindings inserted into the registry: one per first occurrence of a
key not seen before. -/
def freshOccs (seen : List String) : List DeclEvent → List (String × Node)
  | [] => []
  | e :: rest =>
      if e.key ∈ seen then freshOccs seen rest
      else (e.key, e.node) :: freshOccs (e.key :: seen) rest

/-- Recogniser for `invalid_reference` violations. -/
def isInvalidRef : Violation → Bool
  | .invalid_reference _ _ => true
  | _ => false

/-- Recogniser for `duplicate_id` violations citing the identifier `s`. -/
def isDupOf (s : String) : Violation → Bool
  | .duplicate_id _ k => k = s
  | _ => false

/-! ## Basic lemmas about the dict model -/

theorem dictLookup_append (m1 m2 : List (String × Node)) (k : String) :
    dictLookup (m1 ++ m2) k =
      match dictLookup m1 k with
      | some v => some v
      | none => dictLookup m2 k := by
  induction m1 with
  | nil => simp [dictLookup]
  | cons p rest ih =>
      obtain ⟨k1, v1⟩ := p
      by_cases h : k1 = k <;> simp [dictLookup, h, ih]

theorem dictLookup_isSome_iff (m : List (String × Node)) (k : String) :
    (dictLookup m k).isSome ↔ k ∈ m.map Prod.fst := by
  induction m with
  | nil => simp [dictLookup]
  | cons p rest ih =>
      obtain ⟨k1, v1⟩ := p
      by_cases h : k1 = k
      · subst h
        simp [dictLookup]
      · simp [dictLookup, h, ih, Ne.symm h]

/-! ## Characterisation of the walk by its event streams -/

/-- The state reached from `st` after processing declaration events `es`
through the registry and appending reference events `rs`. -/
def specState (st : WalkState) (es : List DeclEvent)
    (rs : List (List Seg × String)) : WalkState :=
  { errors := (buildRegistry ⟨st.errors, st.id_to_node⟩ es).errors,
    id_to_node := (buildRegistry ⟨st.errors, st.id_to_node⟩ es).id_to_node,
    refs := st.refs ++ rs }

theorem specState_nil (st : WalkState) : specState st [] [] = st := by
  simp [specState, buildRegistry]

theorem specState_comp (st : WalkState) (es1 es2 : List DeclEvent)
    (rs1 rs2 : List (List Seg × String)) :
    specState (specState st es1 rs1) es2 rs2 =
      specState st (es1 ++ es2) (rs1 ++ rs2) := by
  simp [specState, buildRegistry, List.foldl_append]

theorem declareId_specState (st : WalkState) (node_loc : List Seg)
    (id : String) (node : Node) :
    declareId st node_loc id node = specState st [⟨node_loc, id, node⟩] [] := by
  by_cases h : (dictLookup st.id_to_node id).isSome <;>
    simp [declareId, specState, buildRegistry, declStep, dupViolation, h]

theorem refsAppend_specState (st : WalkState) (rs : List (List Seg × String)) :
    ({ st with refs := st.refs ++ rs } : WalkState) = specState st [] rs := by
  simp [specState, buildRegistry]

theorem walkAnswers_specState (answers : List Answer) (node_loc : List Seg)
    (j : Nat) (st : WalkState) :
    walkAnswers answers node_loc j st =
      specState st [] (answerRefs answers node_loc j) := by
  induction answers generalizing j st with
  | nil => simp [walkAnswers, answerRefs, specState_nil]
  | cons ans rest ih =>
      cases h : truthyStr ans.goto <;>
        simp [walkAnswers, answerRefs, h, ih, specState, buildRegistry]

mutual
theorem walk_spec (nodes : List Node) (loc : List Seg) (i : Nat) (st : WalkState) :
    walk nodes loc i st =
      specState st (declEvents nodes loc i) (refEvents nodes loc i) := by
  cases nodes with
  | nil => simp [walk, declEvents, refEvents, specState_nil]
  | cons node rest =>
      have h1 := walkNode_spec node (loc ++ [Seg.field "questions", Seg.idx i]) st
      have h2 := walk_spec rest loc (i + 1)
        (walkNode node (loc ++ [Seg.field "questions", Seg.idx i]) st)
      simp only [walk]
      rw [h2, h1, specState_comp]
      simp only [declEvents, refEvents]
termination_by sizeOf nodes

theorem walkNode_spec (node : Node) (node_loc : List Seg) (st : WalkState) :
    walkNode node node_loc st =
      specState st (nodeDecls node node_loc) (nodeRefs node node_loc) := by
  cases node with
  | question q =>
      cases h : truthyStr q.next_question with
      | none =>
          simp only [walkNode, h, declareId_specState, walkAnswers_specState,
            specState_comp, nodeDecls, nodeRefs, questionRefs]
          simp
      | some nq =>
          simp only [walkNode, h, declareId_specState, refsAppend_specState,
            walkAnswers_specState, specState_comp, nodeDecls, nodeRefs, questionRefs]
          simp
  | switch s =>
      cases s with
      | mk sw sid cs =>
          have h1 := walkCases_spec cs node_loc 0
          cases h : truthyStr sid with
          | none =>
              simp only [walkNode, h, nodeDecls, nodeRefs]
              rw [h1]
              simp
          | some s0 =>
              simp only [walkNode, h, declareId_specState, nodeDecls, nodeRefs]
              rw [h1, specState_comp]
              simp
termination_by sizeOf node

theorem walkCases_spec (cases_ : List Case) (node_loc : List Seg) (k : Nat)
    (st : WalkState) :
    walkCases cases_ node_loc k st =
      specState st (caseDecls cases_ node_loc k) (caseRefs cases_ node_loc k) := by
  cases cases_ with
  | nil => simp [walkCases, caseDecls, caseRefs, specState_nil]
  | cons c rest =>
      cases c with
      | mk v qs =>
          have h1 := walk_spec qs (node_loc ++ [Seg.field "cases", Seg.idx k]) 0 st
          have h2 := walkCases_spec rest node_loc (k + 1)
            (walk qs (node_loc ++ [Seg.field "cases", Seg.idx k]) 0 st)
          simp only [walkCases]
          rw [h2, h1, specState_comp]
          simp only [caseDecls, caseRefs]
termination_by sizeOf cases_
end

/-- Unfolding of `runValidation` in terms of the event streams: the error list is the
duplicate errors of the registry fold followed by one `invalid_reference`
per reference whose target is not bound, and the returned map is the
registry content. -/
theorem runValidation_spec (self : Questionnaire) :
    runValidation self =
      ((buildRegistry ⟨[], []⟩ (declEvents self.questions [] 0)).errors ++
        (refEvents self.questions [] 0).filterMap (fun r =>
          if (dictLookup (buildRegistry ⟨[], []⟩
              (declEvents self.questions [] 0)).id_to_node r.2).isSome then none
          else some (.invalid_reference r.1 r.2)),
       (buildRegistry ⟨[], []⟩ (declEvents self.questions [] 0)).id_to_node) := by
  simp only [runValidation, walk_spec]
  simp [specState]

theorem dictLookup_singleton (k1 : String) (v : Node) (k : String) :
    dictLookup [(k1, v)] k = if k1 = k then some v else none := by
  simp [dictLookup]

theorem buildRegistry_cons (r : Registry) (e : DeclEvent) (es : List DeclEvent) :
    buildRegistry r (e :: es) = buildRegistry (declStep r e) es := rfl

theorem buildRegistry_append (r : Registry) (a b : List DeclEvent) :
    buildRegistry r (a ++ b) = buildRegistry (buildRegistry r a) b := by
  simp [buildRegistry, List.foldl_append]

/-! ## The registry fold characterised by first and duplicate occurrences -/

/-- Processing declaration events from a registry whose bound keys are
exactly `seen` appends one `DuplicateIdentifier` violation per already-seen
occurrence and one binding per first occurrence. -/
theorem buildRegistry_char (es : List DeclEvent) :
    ∀ (r : Registry) (seen : List String),
      (∀ k, k ∈ seen ↔ (dictLookup r.id_to_node k).isSome) →
      buildRegistry r es =
        ⟨r.errors ++ (dupOccs seen es).map dupViolation,
         r.id_to_node ++ freshOccs seen es⟩ := by
  induction es with
  | nil =>
      intro r seen hinv
      simp [buildRegistry, dupOccs, freshOccs]
  | cons e rest ih =>
      intro r seen hinv
      rw [buildRegistry_cons]
      by_cases hk : e.key ∈ seen
      · have hs : (dictLookup r.id_to_node e.key).isSome = true := (hinv e.key).mp hk
        have hstep : declStep r e = { r with errors := r.errors ++ [dupViolation e] } := by
          simp [declStep, hs]
        rw [hstep, ih _ seen (by intro k; simpa using hinv k)]
        simp [dupOccs, freshOccs, hk]
      · have hs : ¬ (dictLookup r.id_to_node e.key).isSome = true :=
          fun h => hk ((hinv e.key).mpr h)
        have hstep : declStep r e =
            { r with id_to_node := r.id_to_node ++ [(e.key, e.node)] } := by
          simp [declStep, hs]
        have hinv2 : ∀ k, k ∈ e.key :: seen ↔
            (dictLookup (r.id_to_node ++ [(e.key, e.node)]) k).isSome := by
          intro k
          rw [dictLookup_append, dictLookup_singleton]
          cases hcase : dictLookup r.id_to_node k with
          | some v =>
              have hks : k ∈ seen := (hinv k).mpr (by simp [hcase])
              simp [List.mem_cons, hks]
          | none =>
              have hkn : k ∉ seen := fun hh => by
                have hcontra := (hinv k).mp hh
                rw [hcase] at hcontra
                simp at hcontra
              by_cases hek : e.key = k
              · simp [List.mem_cons, hek, hkn]
              · have hek2 : ¬ k = e.key := fun hh => hek hh.symm
                simp [List.mem_cons, hek, hek2, hkn]
      
        rw [hstep, ih _ (e.key :: seen) (fun k => hinv2 k)]
        simp [dupOccs, freshOccs, hk]

/-- The registry fold from the empty registry. -/
theorem buildRegistry_empty_char (es : List DeclEvent) :
    buildRegistry ⟨[], []⟩ es =
      ⟨(dupOccs [] es).map dupViolation, freshOccs [] es⟩ := by
  have h := buildRegistry_char es ⟨[], []⟩ [] (by intro k; simp [dictLookup])
  simpa using h

/-- With pairwise distinct keys and none of them pre-seen, no event is
flagged as a duplicate. -/
theorem dupOccs_eq_nil (es : List DeclEvent) :
    ∀ seen, ((es.map DeclEvent.key).Nodup) → (∀ e ∈ es, e.key ∉ seen) →
      dupOccs seen es = [] := by
  induction es with
  | nil => intro seen _ _; rfl
  | cons e rest ih =>
      intro seen hnd hdisj
      have hk : e.key ∉ seen := hdisj e (by simp)
      rw [List.map_cons, List.nodup_cons] at hnd
      simp only [dupOccs, if_neg hk]
      apply ih (e.key :: seen) hnd.2
      intro e2 he2
      simp only [List.mem_cons]
      rintro (heq | hin)
      · exact hnd.1 (heq ▸ List.mem_map_of_mem DeclEvent.key he2)
      · exact hdisj e2 (List.mem_cons_of_mem _ he2) hin

/-- With pairwise distinct keys and none of them pre-seen, every event
inserts its binding, in order. -/
theorem freshOccs_eq_map (es : List DeclEvent) :
    ∀ seen, ((es.map DeclEvent.key).Nodup) → (∀ e ∈ es, e.key ∉ seen) →
      freshOccs seen es = es.map (fun e => (e.key, e.node)) := by
  induction es with
  | nil => intro seen _ _; rfl
  | cons e rest ih =>
      intro seen hnd hdisj
      have hk : e.key ∉ seen := hdisj e (by simp)
      rw [List.map_cons, List.nodup_cons] at hnd
      simp only [freshOccs, if_neg hk, List.map_cons]
      congr 1
      apply ih (e.key :: seen) hnd.2
      intro e2 he2
      simp only [List.mem_cons]
      rintro (heq | hin)
      · exact hnd.1 (heq ▸ List.mem_map_of_mem DeclEvent.key he2)
      · exact hdisj e2 (List.mem_cons_of_mem _ he2) hin

/-- In an association list with pairwise distinct keys, lookup of the key
of a member returns its value. -/
theorem dictLookup_of_mem_nodup (l : List (String × Node))
    (h : (l.map Prod.fst).Nodup) (k : String) (v : Node) (hm : (k, v) ∈ l) :
    dictLookup l k = some v := by
  induction l with
  | nil => simp at hm
  | cons p rest ih =>
      obtain ⟨k1, v1⟩ := p
      rw [List.map_cons, List.nodup_cons] at h
      rcases List.mem_cons.mp hm with heq | hmem
      · cases heq
        simp [dictLookup]
      · have hne : k1 ≠ k := by
          rintro rfl
          exact h.1 (List.mem_map.mpr ⟨(k1, v), hmem, rfl⟩)
        simp [dictLookup, hne, ih h.2 hmem]

/-- A binding present in the registry is never overwritten by later
declaration events: first occurrence wins. -/
theorem lookup_buildRegistry_mono (es : List DeclEvent) :
    ∀ (r : Registry) (k : String) (n : Node),
      dictLookup r.id_to_node k = some n →
      dictLookup (buildRegistry r es).id_to_node k = some n := by
  induction es with
  | nil => intro r k n h; exact h
  | cons e rest ih =>
      intro r k n h
      rw [buildRegistry_cons]
      apply ih
      by_cases hx : (dictLookup r.id_to_node e.key).isSome
      · simpa [declStep, hx] using h
      · have hgoal : dictLookup (r.id_to_node ++ [(e.key, e.node)]) k = some n := by
          rw [dictLookup_append, h]
        simpa [declStep, hx] using hgoal

/-- Any key declared by some event is bound in the final registry. -/
theorem lookup_buildRegistry_isSome (es : List DeclEvent) :
    ∀ (r : Registry) (k : String),
      (∃ e ∈ es, e.key = k) →
      (dictLookup (buildRegistry r es).id_to_node k).isSome := by
  induction es with
  | nil => intro r k h; simp at h
  | cons e rest ih =>
      intro r k h
      rw [buildRegistry_cons]
      rcases h with ⟨e2, he2, hkey⟩
      rcases List.mem_cons.mp he2 with rfl | hmem
      · subst hkey
        have hsome : ∃ n, dictLookup (declStep r e2).id_to_node e2.key = some n := by
          by_cases hx : (dictLookup r.id_to_node e2.key).isSome
          · rcases Option.isSome_iff_exists.mp hx with ⟨n, hn⟩
            exact ⟨n, by simpa [declStep, hx] using hn⟩
          · refine ⟨e2.node, ?_⟩
            have hnone : dictLookup r.id_to_node e2.key = none := by
              cases hc : dictLookup r.id_to_node e2.key
              · rfl
              · rw [hc] at hx; simp at hx
            have hgoal : dictLookup (r.id_to_node ++ [(e2.key, e2.node)]) e2.key =
                some e2.node := by
              rw [dictLookup_append, hnone, dictLookup_singleton]
              simp
            simpa [declStep, hx] using hgoal
        rcases hsome with ⟨n, hn⟩
        rw [Option.isSome_iff_exists]
        exact ⟨n, lookup_buildRegistry_mono rest (declStep r e2) e2.key n hn⟩
      · exact ih (declStep r e) k ⟨e2, hmem, hkey⟩

/-- Lookup of a key among the inserted bindings finds the node of the
first declaration event with that key. -/
theorem freshOccs_lookup (es : List DeclEvent) :
    ∀ seen s, s ∉ seen →
      dictLookup (freshOccs seen es) s =
        (es.filter (fun e => e.key = s)).head?.map DeclEvent.node := by
  induction es with
  | nil => intro seen s _; simp [freshOccs, dictLookup]
  | cons e rest ih =>
      intro seen s hs
      by_cases hk : e.key ∈ seen
      · have hne : e.key ≠ s := fun h => hs (h ▸ hk)
        simp only [freshOccs, if_pos hk]
        rw [ih seen s hs]
        simp [List.filter_cons, hne]
      · by_cases hes : e.key = s
        · subst hes
          simp only [freshOccs, if_neg hk]
          simp [dictLookup, List.filter_cons]
        · have hs2 : s ∉ e.key :: seen := by
            intro hsm
            rcases List.mem_cons.mp hsm with h1 | h2
            · exact hes h1.symm
            · exact hs h2
          simp only [freshOccs, if_neg hk]
          simp [dictLookup, hes, ih (e.key :: seen) s hs2, List.filter_cons]

/-- Among the flagged duplicates, the occurrences of a fixed key `s` are
all its occurrences when `s` was pre-seen, and all but the first
otherwise. -/
theorem dupOccs_filter (es : List DeclEvent) :
    ∀ seen s,
      (dupOccs seen es).filter (fun e => e.key = s) =
        if s ∈ seen then es.filter (fun e => e.key = s)
        else (es.filter (fun e => e.key = s)).tail := by
  induction es with
  | nil => intro seen s; simp [dupOccs]
  | cons e rest ih =>
      intro seen s
      by_cases hk : e.key ∈ seen
      · by_cases hes : e.key = s
        · subst hes
          simp [dupOccs, if_pos hk, List.filter_cons, ih seen e.key, hk]
        · simp [dupOccs, if_pos hk, List.filter_cons, hes, ih seen s]
      · by_cases hes : e.key = s
        · subst hes
          simp [dupOccs, if_neg hk, List.filter_cons, ih (e.key :: seen) e.key, hk]
        · have hse : ¬ s = e.key := fun h => hes h.symm
          have hmem : (s ∈ e.key :: seen) = (s ∈ seen) := by
            simp [List.mem_cons, hse]
          simp [dupOccs, if_neg hk, List.filter_cons, hes, ih (e.key :: seen) s, hmem]

/-- Unresolved references are turned into violations one for one. -/
theorem filterMap_refs (refs : List (List Seg × String)) (m : List (String × Node)) :
    refs.filterMap (fun r =>
        if (dictLookup m r.2).isSome then none
        else some (Violation.invalid_reference r.1 r.2)) =
      (refs.filter (fun r => (dictLookup m r.2).isNone)).map
        (fun r => Violation.invalid_reference r.1 r.2) := by
  induction refs with
  | nil => rfl
  | cons r rest ih =>
      cases hc : dictLookup m r.2 with
      | some v => simp [List.filterMap_cons, List.filter_cons, hc, ih]
      | none => simp [List.filterMap_cons, List.filter_cons, hc, ih]

/-- The error list produced by a validation run: duplicate violations from
the walk, then one `invalid_reference` per unresolved collected reference. -/
theorem runValidation_errors (self : Questionnaire) :
    (runValidation self).1 =
      (dupOccs [] (declEvents self.questions [] 0)).map dupViolation ++
      (refEvents self.questions [] 0).filterMap (fun r =>
        if (dictLookup (freshOccs [] (declEvents self.questions [] 0)) r.2).isSome
        then none else some (.invalid_reference r.1 r.2)) := by
  rw [runValidation_spec, buildRegistry_empty_char]

/-- The registry content produced by a validation run: one binding per
first occurrence of each declared identifier. -/
theorem runValidation_map (self : Questionnaire) :
    (runValidation self).2 = freshOccs [] (declEvents self.questions [] 0) := by
  rw [runValidation_spec, buildRegistry_empty_char]

theorem validate_of_errors_nil (qn : Questionnaire)
    (h : (runValidation qn).1 = []) :
    validate_and_build_id_map qn =
      .ok { qn with question_map := (runValidation qn).2 } := by
  simp [validate_and_build_id_map, h]

theorem validate_of_errors_ne (qn : Questionnaire)
    (h : (runValidation qn).1 ≠ []) :
    validate_and_build_id_map qn = .error (runValidation qn).1 := by
  have hfalse : (runValidation qn).1.isEmpty = false := by
    cases hc : (runValidation qn).1
    · exact absurd hc h
    · rfl
  simp [validate_and_build_id_map, hfalse]

/-! ## C1: valid trees validate and publish a correct identifier map -/

/-- C1: for every questionnaire in which no two visited Question/Switch
nodes declare the same effective identifier and every collected
`next_question`/`goto` reference targets some declared identifier,
validation succeeds, and the published identifier map binds each declared
identifier (including a Question identified by its own question text,
since `effectiveId` is used in `declEvents`) to the node that declared it,
so `get_node` returns the correct node. -/
theorem C1_valid_tree_map_correct (qn : Questionnaire)
    (hnodup : ((declEvents qn.questions [] 0).map DeclEvent.key).Nodup)
    (href : ∀ r ∈ refEvents qn.questions [] 0,
      ∃ e ∈ declEvents qn.questions [] 0, e.key = r.2) :
    validate_and_build_id_map qn =
      .ok { qn with question_map :=
        (declEvents qn.questions [] 0).map (fun e => (e.key, e.node)) } ∧
    ∀ e ∈ declEvents qn.questions [] 0,
      get_node { qn with question_map :=
          (declEvents qn.questions [] 0).map (fun e => (e.key, e.node)) } e.key =
        some e.node := by
  have hreg : buildRegistry ⟨[], []⟩ (declEvents qn.questions [] 0) =
      ⟨[], (declEvents qn.questions [] 0).map (fun e => (e.key, e.node))⟩ := by
    rw [buildRegistry_empty_char]
    rw [dupOccs_eq_nil _ [] hnodup (by intro e _; simp)]
    rw [freshOccs_eq_map _ [] hnodup (by intro e _; simp)]
    rfl
  have hnil : (refEvents qn.questions [] 0).filterMap (fun r =>
      if (dictLookup (freshOccs [] (declEvents qn.questions [] 0)) r.2).isSome
      then none else some (Violation.invalid_reference r.1 r.2)) = [] := by
    rw [List.filterMap_eq_nil_iff]
    intro r hr
    have hsome : (dictLookup
        (freshOccs [] (declEvents qn.questions [] 0)) r.2).isSome := by
      have hmono := lookup_buildRegistry_isSome (declEvents qn.questions [] 0)
        ⟨[], []⟩ r.2 (href r hr)
      rw [buildRegistry_empty_char] at hmono
      exact hmono
    simp [hsome]
  have herr : (runValidation qn).1 = [] := by
    rw [runValidation_errors]
    rw [dupOccs_eq_nil _ [] hnodup (by intro e _; simp), hnil]
    rfl
  have hmap : (runValidation qn).2 =
      (declEvents qn.questions [] 0).map (fun e => (e.key, e.node)) := by
    rw [runValidation_map]
    exact freshOccs_eq_map _ [] hnodup (by intro e _; simp)
  constructor
  · rw [validate_of_errors_nil qn herr, hmap]
  · intro e he
    have hkeys : (((declEvents qn.questions [] 0).map
        (fun e => (e.key, e.node))).map Prod.fst).Nodup := by
      simpa [List.map_map, Function.comp] using hnodup
    exact dictLookup_of_mem_nodup _ hkeys e.key e.node
      (List.mem_map_of_mem _ he)

/-- Scenario A of the spec: two Questions without explicit ids where the
first references the question text of the second, and the second jumps
back to the first by `goto`. -/
def sampleA : Questionnaire :=
  { initial_template := "t",
    questions :=
      [ Node.question
          { question := "first", answers := [], next_question := some "second" },
        Node.question
          { question := "second",
            answers := [{ answer := "yes", goto := some "first" }] } ] }

theorem C1_valid_tree_map_correct_witness :
    (((declEvents sampleA.questions [] 0).map DeclEvent.key).Nodup ∧
      ∀ r ∈ refEvents sampleA.questions [] 0,
        ∃ e ∈ declEvents sampleA.questions [] 0, e.key = r.2) ∧
    validate_and_build_id_map sampleA =
      .ok { sampleA with question_map :=
        (declEvents sampleA.questions [] 0).map (fun e => (e.key, e.node)) } :=
  ⟨⟨by decide, by decide⟩,
    (C1_valid_tree_map_correct sampleA (by decide) (by decide)).1⟩

/-! ## C2: duplicate identifiers are flagged at occurrences 2..n -/

/-- C2: when the same effective identifier `s` is declared n ≥ 2 times,
validation fails; the first occurrence keeps its binding in the registry
(the binding is never overwritten), and the `DuplicateIdentifier`
violations citing `s` are exactly one per occurrence 2..n, each located at
that occurrence extended with the path segment `id` (the location inside
`dupViolation`). -/
theorem C2_duplicate_identifier (qn : Questionnaire) (s : String)
    (h2 : 2 ≤ ((declEvents qn.questions [] 0).filter
      (fun e => e.key = s)).length) :
    (∃ E, validate_and_build_id_map qn = .error E) ∧
    (∀ e0, ((declEvents qn.questions [] 0).filter
        (fun e => e.key = s)).head? = some e0 →
      dictLookup (runValidation qn).2 s = some e0.node) ∧
    (runValidation qn).1.filter (isDupOf s) =
      ((declEvents qn.questions [] 0).filter
        (fun e => e.key = s)).tail.map dupViolation := by
  have hcomp : (fun e : DeclEvent => isDupOf s (dupViolation e)) =
      (fun e : DeclEvent => decide (e.key = s)) := by
    funext e
    simp [isDupOf, dupViolation]
  have hfilter : (runValidation qn).1.filter (isDupOf s) =
      ((declEvents qn.questions [] 0).filter
        (fun e => e.key = s)).tail.map dupViolation := by
    rw [runValidation_errors, List.filter_append]
    have hpart1 : ((dupOccs [] (declEvents qn.questions [] 0)).map
        dupViolation).filter (isDupOf s) =
        ((declEvents qn.questions [] 0).filter
          (fun e => e.key = s)).tail.map dupViolation := by
      rw [List.filter_map]
      have hocc := dupOccs_filter (declEvents qn.questions [] 0) [] s
      simp only [List.not_mem_nil, if_neg] at hocc
      rw [show (isDupOf s ∘ dupViolation) =
        (fun e : DeclEvent => decide (e.key = s)) from hcomp]
      rw [hocc]
      simp
    have hpart2 : ((refEvents qn.questions [] 0).filterMap (fun r =>
        if (dictLookup (freshOccs [] (declEvents qn.questions [] 0)) r.2).isSome
        then none else some (Violation.invalid_reference r.1 r.2))).filter
          (isDupOf s) = [] := by
      rw [filterMap_refs, List.filter_map]
      have hfalse : (isDupOf s ∘ fun r : List Seg × String =>
          Violation.invalid_reference r.1 r.2) = fun _ => false := by
        funext r
        simp [isDupOf]
      rw [hfalse]
      simp
    rw [hpart1, hpart2, List.append_nil]
  refine ⟨?_, ?_, hfilter⟩
  · have htail : ((declEvents qn.questions [] 0).filter
        (fun e => e.key = s)).tail ≠ [] := by
      intro hnil
      have hlen := congrArg List.length hnil
      simp [List.length_tail] at hlen
      omega
    have hne : (runValidation qn).1 ≠ [] := by
      intro h0
      rw [h0] at hfilter
      exact htail (List.map_eq_nil_iff.mp hfilter.symm)
    exact ⟨(runValidation qn).1, validate_of_errors_ne qn hne⟩
  · intro e0 he0
    rw [runValidation_map]
    rw [freshOccs_lookup (declEvents qn.questions [] 0) [] s (by simp), he0]
    rfl

/-- Scenario B of the spec: two Questions with the same explicit id. -/
def sampleB : Questionnaire :=
  { initial_template := "t",
    questions :=
      [ Node.question { question := "one", id := some "q1", answers := [] },
        Node.question { question := "two", id := some "q1", answers := [] } ] }

theorem C2_duplicate_identifier_witness :
    2 ≤ ((declEvents sampleB.questions [] 0).filter
      (fun e => e.key = "q1")).length ∧
    (runValidation sampleB).1.filter (isDupOf "q1") =
      ((declEvents sampleB.questions [] 0).filter
        (fun e => e.key = "q1")).tail.map dupViolation :=
  ⟨by decide, (C2_duplicate_identifier sampleB "q1" (by decide)).2.2⟩

/-! ## C3: every unresolved reference yields exactly one violation -/

/-- C3: the `invalid_reference` violations of a validation run are exactly
one per collected reference event whose target is not bound in the
completed registry, each located at the exact field path of the reference
and citing the unresolved identifier; all reference events are checked, so
k unresolvable references produce k violations, and any unresolved
reference makes validation fail. -/
theorem C3_unresolved_references (qn : Questionnaire) :
    (runValidation qn).1.filter isInvalidRef =
      ((refEvents qn.questions [] 0).filter
        (fun r => (dictLookup (runValidation qn).2 r.2).isNone)).map
        (fun r => Violation.invalid_reference r.1 r.2) ∧
    ((∃ r ∈ refEvents qn.questions [] 0,
        (dictLookup (runValidation qn).2 r.2).isNone) →
      validate_and_build_id_map qn = .error ((runValidation qn).1)) := by
  have hfil : (runValidation qn).1.filter isInvalidRef =
      ((refEvents qn.questions [] 0).filter
        (fun r => (dictLookup (runValidation qn).2 r.2).isNone)).map
        (fun r => Violation.invalid_reference r.1 r.2) := by
    rw [runValidation_map, runValidation_errors, List.filter_append]
    have hpart1 : ((dupOccs [] (declEvents qn.questions [] 0)).map
        dupViolation).filter isInvalidRef = [] := by
      rw [List.filter_map]
      have hfalse : (isInvalidRef ∘ dupViolation) = fun _ => false := by
        funext e
        simp [isInvalidRef, dupViolation]
      rw [hfalse]
      simp
    have hpart2 : ((refEvents qn.questions [] 0).filterMap (fun r =>
        if (dictLookup (freshOccs [] (declEvents qn.questions [] 0)) r.2).isSome
        then none else some (Violation.invalid_reference r.1 r.2))).filter
          isInvalidRef =
        ((refEvents qn.questions [] 0).filter (fun r =>
          (dictLookup (freshOccs [] (declEvents qn.questions [] 0)) r.2).isNone)).map
          (fun r => Violation.invalid_reference r.1 r.2) := by
      rw [filterMap_refs, List.filter_map]
      have htrue : (isInvalidRef ∘ fun r : List Seg × String =>
          Violation.invalid_reference r.1 r.2) = fun _ => true := by
        funext r
        simp [isInvalidRef]
      rw [htrue]
      simp
    rw [hpart1, hpart2, List.nil_append]
  refine ⟨hfil, ?_⟩
  rintro ⟨r, hr, hnone⟩
  have hmem : Violation.invalid_reference r.1 r.2 ∈
      (runValidation qn).1.filter isInvalidRef := by
    rw [hfil]
    exact List.mem_map_of_mem _ (List.mem_filter.mpr ⟨hr, hnone⟩)
  have hne : (runValidation qn).1 ≠ [] :=
    List.ne_nil_of_mem (List.mem_of_mem_filter hmem)
  exact validate_of_errors_ne qn hne

/-- Scenario C of the spec: one Question with an Answer whose `goto`
targets an identifier declared nowhere. -/
def sampleC : Questionnaire :=
  { initial_template := "t",
    questions :=
      [ Node.question
          { question := "one",
            answers := [{ answer := "a", goto := some "missing" }] } ] }

theorem C3_unresolved_references_witness :
    (∃ r ∈ refEvents sampleC.questions [] 0,
        (dictLookup (runValidation sampleC).2 r.2).isNone) ∧
    validate_and_build_id_map sampleC = .error ((runValidation sampleC).1) :=
  ⟨by decide, (C3_unresolved_references sampleC).2 (by decide)⟩

/-! ## C4: reference resolution is order-independent -/

/-- C4: a target identifier declared anywhere in the tree (also later in
document order, or in a different Switch branch) is never cited by an
`invalid_reference` violation: references are checked only against the
registry completed after the full walk. -/
theorem C4_order_independent (qn : Questionnaire) (t : String)
    (hdecl : ∃ e ∈ declEvents qn.questions [] 0, e.key = t) :
    ∀ l, Violation.invalid_reference l t ∉ (runValidation qn).1 := by
  intro l hmem
  rw [runValidation_errors] at hmem
  rcases List.mem_append.mp hmem with h1 | h2
  · rcases List.mem_map.mp h1 with ⟨e, _, heq⟩
    simp [dupViolation] at heq
  · rcases List.mem_filterMap.mp h2 with ⟨r, hr, heq⟩
    by_cases hs : (dictLookup (freshOccs []
        (declEvents qn.questions [] 0)) r.2).isSome
    · simp [hs] at heq
    · simp only [hs, if_false, Bool.false_eq_true, Option.some.injEq] at heq
      have ht : r.2 = t := by
        have heq2 := congrArg (fun v => match v with
          | Violation.invalid_reference _ x => x
          | Violation.duplicate_id _ x => x) heq
        simpa using heq2
      have hsome := lookup_buildRegistry_isSome
        (declEvents qn.questions [] 0) ⟨[], []⟩ t hdecl
      rw [buildRegistry_empty_char] at hsome
      rw [ht] at hs
      exact hs hsome

/-- Scenario D of the spec: a `goto` in the first root Question targets
the id of a Switch declared later in document order. -/
def sampleD : Questionnaire :=
  { initial_template := "t",
    questions :=
      [ Node.question
          { question := "entry",
            answers := [{ answer := "a", goto := some "s1" }] },
        Node.switch
          (Switch.mk "v" (some "s1")
            [ Case.mk (some 0)
                [ Node.question { question := "inner", answers := [] } ] ]) ] }

theorem C4_order_independent_witness :
    (∃ e ∈ declEvents sampleD.questions [] 0, e.key = "s1") ∧
    ∀ l, Violation.invalid_reference l "s1" ∉ (runValidation sampleD).1 :=
  ⟨by decide, C4_order_independent sampleD "s1" (by decide)⟩

/-! ## C6: all violations are delivered together, map published only on
success -/

/-- C6: validation fails exactly when at least one violation was recorded;
a failure delivers the whole accumulated violation list in one structured
error while carrying no questionnaire value at all (construction does not
complete, so no part of the identifier map is published), and a success
publishes the complete registry of the run. -/
theorem C6_all_or_nothing (qn : Questionnaire) :
    ((runValidation qn).1 = [] →
      validate_and_build_id_map qn =
        .ok { qn with
              question_map := freshOccs [] (declEvents qn.questions [] 0) }) ∧
    ((runValidation qn).1 ≠ [] →
      validate_and_build_id_map qn = .error ((runValidation qn).1)) ∧
    (∀ E, validate_and_build_id_map qn = .error E → E ≠ []) := by
  refine ⟨?_, validate_of_errors_ne qn, ?_⟩
  · intro h
    rw [validate_of_errors_nil qn h, runValidation_map]
  · intro E hE
    by_cases hc : (runValidation qn).1 = []
    · rw [validate_of_errors_nil qn hc] at hE
      exact absurd hE (by simp)
    · rw [validate_of_errors_ne qn hc] at hE
      have hEeq : (runValidation qn).1 = E := by
        injection hE
      rw [← hEeq]
      exact hc

theorem C6_all_or_nothing_witness :
    ((runValidation sampleA).1 = [] ∧
      validate_and_build_id_map sampleA =
        .ok { sampleA with
              question_map := freshOccs [] (declEvents sampleA.questions [] 0) }) ∧
    ((runValidation sampleC).1 ≠ [] ∧
      validate_and_build_id_map sampleC = .error ((runValidation sampleC).1)) :=
  ⟨⟨by decide, (C6_all_or_nothing sampleA).1 (by decide)⟩,
    ⟨by decide, (C6_all_or_nothing sampleC).2.1 (by decide)⟩⟩

/-! ## C7: fallback to the question text as implicit identifier -/

/-- The declaration events of a node found at index `i` of a node list are
among the declaration events of the list, at location
`loc + ("questions", base + i)`. -/
theorem mem_declEvents_of_get (nodes : List Node) :
    ∀ (loc : List Seg) (base i : Nat) (node : Node),
      nodes[i]? = some node →
      ∀ x ∈ nodeDecls node (loc ++ [Seg.field "questions", Seg.idx (base + i)]),
        x ∈ declEvents nodes loc base := by
  induction nodes with
  | nil =>
      intro loc base i node h
      simp at h
  | cons n rest ih =>
      intro loc base i node h x hx
      cases i with
      | zero =>
          simp only [List.getElem?_cons_zero, Option.some.injEq] at h
          subst h
          simp only [declEvents]
          exact List.mem_append_left _ (by simpa using hx)
      | succ i2 =>
          simp only [List.getElem?_cons_succ] at h
          simp only [declEvents]
          apply List.mem_append_right
          apply ih loc (base + 1) i2 node h x
          have harith : base + 1 + i2 = base + (i2 + 1) := by omega
          rw [harith]
          exact hx

/-- Two distinct members both satisfying a filter give the filtered list
length at least two. -/
theorem two_le_filter_length (l : List DeclEvent) (p : DeclEvent → Bool)
    (a b : DeclEvent) (ha : a ∈ l) (hb : b ∈ l) (hab : a ≠ b)
    (hpa : p a = true) (hpb : p b = true) :
    2 ≤ (l.filter p).length := by
  have ha2 : a ∈ l.filter p := List.mem_filter.mpr ⟨ha, hpa⟩
  have hb2 : b ∈ l.filter p := List.mem_filter.mpr ⟨hb, hpb⟩
  rcases List.append_of_mem ha2 with ⟨l1, l2, heq⟩
  rw [heq] at hb2 ⊢
  rcases List.mem_append.mp hb2 with h1 | h2
  · have h1p : 0 < l1.length := List.length_pos.mpr (List.ne_nil_of_mem h1)
    have hlen : (l1 ++ a :: l2).length = l1.length + (l2.length + 1) := by
      simp
    omega
  · rcases List.mem_cons.mp h2 with heq2 | h3
    · exact absurd heq2 (Ne.symm hab)
    · have h3p : 0 < l2.length := List.length_pos.mpr (List.ne_nil_of_mem h3)
      have hlen : (l1 ++ a :: l2).length = l1.length + (l2.length + 1) := by
        simp
      omega

/-! ## C9: empty strings behave as absent values -/

/-- C9: empty strings are falsy at every optional field, exactly as in
Python: a Question whose explicit id is `""` falls back to its question
text; a Switch whose id is `""` contributes nothing (its processing equals
plain descent into its cases); a `next_question` equal to `""` emits no
reference event; an Answer whose `goto` is `""` emits no reference event. -/
theorem C9_empty_string_falsy :
    (∀ q : Question, q.id = some "" → effectiveId q = q.question) ∧
    (∀ (sw : String) (cs : List Case) (node_loc : List Seg) (st : WalkState),
      walkNode (.switch (.mk sw (some "") cs)) node_loc st =
        walkCases cs node_loc 0 st) ∧
    (∀ (q : Question) (node_loc : List Seg) (st : WalkState),
      q.next_question = some "" →
      (walkNode (.question q) node_loc st).refs =
        st.refs ++ answerRefs q.answers node_loc 0) ∧
    (∀ (ans : Answer) (rest : List Answer) (node_loc : List Seg) (j : Nat)
        (st : WalkState),
      ans.goto = some "" →
      walkAnswers (ans :: rest) node_loc j st =
        walkAnswers rest node_loc (j + 1) st) := by
  refine ⟨?_, ?_, ?_, ?_⟩
  · intro q h
    simp [effectiveId, truthyStr, h]
  · intro sw cs node_loc st
    rfl
  · intro q node_loc st h
    rw [walkNode_spec]
    simp [specState, nodeRefs, questionRefs, truthyStr, h]
  · intro ans rest node_loc j st h
    simp [walkAnswers, h, truthyStr]

theorem C9_empty_string_falsy_witness :
    ({ question := "w", id := some "", answers := [] } : Question).id = some "" ∧
    effectiveId { question := "w", id := some "", answers := [] } = "w" ∧
    ({ answer := "a", goto := some "" } : Answer).goto = some "" ∧
    walkAnswers [{ answer := "a", goto := some "" }] [] 0 ⟨[], [], []⟩ =
      walkAnswers [] [] 1 ⟨[], [], []⟩ :=
  ⟨rfl,
    C9_empty_string_falsy.1 { question := "w", id := some "", answers := [] } rfl,
    rfl,
    C9_empty_string_falsy.2.2.2 { answer := "a", goto := some "" } [] [] 0
      ⟨[], [], []⟩ rfl⟩

/-! ## C10: successful validation changes only the identifier map -/

/-- C10: when validation succeeds, the returned questionnaire agrees with
the input on `initial_template`, `initial_commentary`, `feedback_url` and
the entire `questions` tree; only the identifier map is set, to the
registry of the run. -/
theorem C10_frame (qn qn2 : Questionnaire)
    (h : validate_and_build_id_map qn = .ok qn2) :
    qn2.initial_template = qn.initial_template ∧
    qn2.initial_commentary = qn.initial_commentary ∧
    qn2.feedback_url = qn.feedback_url ∧
    qn2.questions = qn.questions ∧
    qn2.question_map = (runValidation qn).2 := by
  by_cases hc : (runValidation qn).1 = []
  · rw [validate_of_errors_nil qn hc] at h
    have h2 : ({ qn with question_map := (runValidation qn).2 } : Questionnaire)
        = qn2 := by
      injection h
    rw [← h2]
    exact ⟨rfl, rfl, rfl, rfl, rfl⟩
  · rw [validate_of_errors_ne qn hc] at h
    exact absurd h (by simp)

theorem C10_frame_witness :
    validate_and_build_id_map sampleA =
      .ok { sampleA with question_map := (runValidation sampleA).2 } ∧
    ({ sampleA with question_map := (runValidation sampleA).2 }
        : Questionnaire).questions = sampleA.questions :=
  ⟨rfl, (C10_frame sampleA
    { sampleA with question_map := (runValidation sampleA).2 } rfl).2.2.2.1⟩

/-! ## C5: structural locations -/

/-- A descent path into the questionnaire tree: each step selects the
index of a Switch in the current node list and the index of one of its
cases, yielding the question list nested in that case. -/
def subSeqAt : List Node → List (Nat × Nat) → Option (List Node)
  | nodes, [] => some nodes
  | nodes, (i, k) :: p =>
      match nodes[i]? with
      | some (.switch (.mk _ _ cs)) =>
          match cs[k]? with
          | some (.mk _ qs) => subSeqAt qs p
          | none => none
      | _ => none

/-- The location prefix accumulated by the walk along a descent path. -/
def pathLoc : List (Nat × Nat) → List Seg
  | [] => []
  | (i, k) :: p =>
      [Seg.field "questions", Seg.idx i, Seg.field "cases", Seg.idx k] ++ pathLoc p

/-- The reference events of a node found at index `i` of a node list are
among the reference events of the list. -/
theorem mem_refEvents_of_get (nodes : List Node) :
    ∀ (loc : List Seg) (base i : Nat) (node : Node),
      nodes[i]? = some node →
      ∀ x ∈ nodeRefs node (loc ++ [Seg.field "questions", Seg.idx (base + i)]),
        x ∈ refEvents nodes loc base := by
  induction nodes with
  | nil =>
      intro loc base i node h
      simp at h
  | cons n rest ih =>
      intro loc base i node h x hx
      cases i with
      | zero =>
          simp only [List.getElem?_cons_zero, Option.some.injEq] at h
          subst h
          simp only [refEvents]
          exact List.mem_append_left _ (by simpa using hx)
      | succ i2 =>
          simp only [List.getElem?_cons_succ] at h
          simp only [refEvents]
          apply List.mem_append_right
          apply ih loc (base + 1) i2 node h x
          have harith : base + 1 + i2 = base + (i2 + 1) := by omega
          rw [harith]
          exact hx

/-- The declaration events nested in the case at index `k` of a case list
are among the declaration events of the case list. -/
theorem mem_caseDecls_of_get (cs : List Case) :
    ∀ (node_loc : List Seg) (base k : Nat) (v : Option Int) (qs : List Node),
      cs[k]? = some (.mk v qs) →
      ∀ x ∈ declEvents qs (node_loc ++ [Seg.field "cases", Seg.idx (base + k)]) 0,
        x ∈ caseDecls cs node_loc base := by
  induction cs with
  | nil =>
      intro node_loc base k v qs h
      simp at h
  | cons c rest ih =>
      intro node_loc base k v qs h x hx
      cases c with
      | mk v2 qs2 =>
          cases k with
          | zero =>
              simp only [List.getElem?_cons_zero, Option.some.injEq, Case.mk.injEq] at h
              obtain ⟨hv, hq⟩ := h
              subst hq
              simp only [caseDecls]
              exact List.mem_append_left _ (by simpa using hx)
          | succ k2 =>
              simp only [List.getElem?_cons_succ] at h
              simp only [caseDecls]
              apply List.mem_append_right
              apply ih node_loc (base + 1) k2 v qs h x
              have harith : base + 1 + k2 = base + (k2 + 1) := by omega
              rw [harith]
              exact hx

/-- The reference events nested in the case at index `k` of a case list
are among the reference events of the case list. -/
theorem mem_caseRefs_of_get (cs : List Case) :
    ∀ (node_loc : List Seg) (base k : Nat) (v : Option Int) (qs : List Node),
      cs[k]? = some (.mk v qs) →
      ∀ x ∈ refEvents qs (node_loc ++ [Seg.field "cases", Seg.idx (base + k)]) 0,
        x ∈ caseRefs cs node_loc base := by
  induction cs with
  | nil =>
      intro node_loc base k v qs h
      simp at h
  | cons c rest ih =>
      intro node_loc base k v qs h x hx
      cases c with
      | mk v2 qs2 =>
          cases k with
          | zero =>
              simp only [List.getElem?_cons_zero, Option.some.injEq, Case.mk.injEq] at h
              obtain ⟨hv, hq⟩ := h
              subst hq
              simp only [caseRefs]
              exact List.mem_append_left _ (by simpa using hx)
          | succ k2 =>
              simp only [List.getElem?_cons_succ] at h
              simp only [caseRefs]
              apply List.mem_append_right
              apply ih node_loc (base + 1) k2 v qs h x
              have harith : base + 1 + k2 = base + (k2 + 1) := by omega
              rw [harith]
              exact hx

/-- The `goto` reference of the answer at index `j` with a truthy `goto`
is among the reference events of the answer list. -/
theorem mem_answerRefs_of_get (answers : List Answer) :
    ∀ (node_loc : List Seg) (base j : Nat) (a : Answer) (g : String),
      answers[j]? = some a → truthyStr a.goto = some g →
      (node_loc ++ [Seg.field "answers", Seg.idx (base + j), Seg.field "goto"], g)
        ∈ answerRefs answers node_loc base := by
  induction answers with
  | nil =>
      intro node_loc base j a g h
      simp at h
  | cons a0 rest ih =>
      intro node_loc base j a g h hg
      cases j with
      | zero =>
          simp only [List.getElem?_cons_zero, Option.some.injEq] at h
          subst h
          simp only [answerRefs, hg]
          exact List.mem_append_left _ (by simp)
      | succ j2 =>
          simp only [List.getElem?_cons_succ] at h
          simp only [answerRefs]
          apply List.mem_append_right
          have harith : base + (j2 + 1) = base + 1 + j2 := by omega
          rw [harith]
          exact ih node_loc (base + 1) j2 a g h hg

/-- Declaration events of a nested question list lift to the outer list,
with the path location prefixed. -/
theorem subSeq_decls_lift (p : List (Nat × Nat)) :
    ∀ (nodes : List Node) (loc : List Seg) (sub : List Node),
      subSeqAt nodes p = some sub →
      ∀ x ∈ declEvents sub (loc ++ pathLoc p) 0, x ∈ declEvents nodes loc 0 := by
  induction p with
  | nil =>
      intro nodes loc sub h x hx
      simp only [subSeqAt, Option.some.injEq] at h
      subst h
      simpa [pathLoc] using hx
  | cons ik p ih =>
      obtain ⟨i, k⟩ := ik
      intro nodes loc sub h x hx
      simp only [subSeqAt] at h
      cases hni : nodes[i]? with
      | none => rw [hni] at h; simp at h
      | some node =>
          rw [hni] at h
          cases node with
          | question q =>
              have h2 : (none : Option (List Node)) = some sub := h
              simp at h2
          | switch s =>
              cases s with
              | mk sw sid cs =>
                  have h2 : (match cs[k]? with
                      | some (Case.mk _ qs) => subSeqAt qs p
                      | none => none) = some sub := h
                  cases hck : cs[k]? with
                  | none => rw [hck] at h2; simp at h2
                  | some c =>
                      rw [hck] at h2
                      cases c with
                      | mk v qs =>
                          have h3 : subSeqAt qs p = some sub := h2
                          have hx2 : x ∈ declEvents sub
                              (((loc ++ [Seg.field "questions", Seg.idx i]) ++
                                [Seg.field "cases", Seg.idx k]) ++ pathLoc p) 0 := by
                            have hassoc :
                                ((loc ++ [Seg.field "questions", Seg.idx i]) ++
                                  [Seg.field "cases", Seg.idx k]) ++ pathLoc p =
                                loc ++ pathLoc ((i, k) :: p) := by
                              simp [pathLoc]
                            rw [hassoc]
                            exact hx
                          have hqs : x ∈ declEvents qs
                              ((loc ++ [Seg.field "questions", Seg.idx i]) ++
                                [Seg.field "cases", Seg.idx k]) 0 :=
                            ih qs _ sub h3 x hx2
                          have hcase : x ∈ caseDecls cs
                              (loc ++ [Seg.field "questions", Seg.idx i]) 0 := by
                            apply mem_caseDecls_of_get cs _ 0 k v qs hck x
                            simpa using hqs
                          have hnode : x ∈ nodeDecls
                              (Node.switch (Switch.mk sw sid cs))
                              (loc ++ [Seg.field "questions", Seg.idx i]) := by
                            simp only [nodeDecls]
                            exact List.mem_append_right _ hcase
                          apply mem_declEvents_of_get nodes loc 0 i _ hni x
                          simpa using hnode

/-- Reference events of a nested question list lift to the outer list,
with the path location prefixed. -/
theorem subSeq_refs_lift (p : List (Nat × Nat)) :
    ∀ (nodes : List Node) (loc : List Seg) (sub : List Node),
      subSeqAt nodes p = some sub →
      ∀ x ∈ refEvents sub (loc ++ pathLoc p) 0, x ∈ refEvents nodes loc 0 := by
  induction p with
  | nil =>
      intro nodes loc sub h x hx
      simp only [subSeqAt, Option.some.injEq] at h
      subst h
      simpa [pathLoc] using hx
  | cons ik p ih =>
      obtain ⟨i, k⟩ := ik
      intro nodes loc sub h x hx
      simp only [subSeqAt] at h
      cases hni : nodes[i]? with
      | none => rw [hni] at h; simp at h
      | some node =>
          rw [hni] at h
          cases node with
          | question q =>
              have h2 : (none : Option (List Node)) = some sub := h
              simp at h2
          | switch s =>
              cases s with
              | mk sw sid cs =>
                  have h2 : (match cs[k]? with
                      | some (Case.mk _ qs) => subSeqAt qs p
                      | none => none) = some sub := h
                  cases hck : cs[k]? with
                  | none => rw [hck] at h2; simp at h2
                  | some c =>
                      rw [hck] at h2
                      cases c with
                      | mk v qs =>
                          have h3 : subSeqAt qs p = some sub := h2
                          have hx2 : x ∈ refEvents sub
                              (((loc ++ [Seg.field "questions", Seg.idx i]) ++
                                [Seg.field "cases", Seg.idx k]) ++ pathLoc p) 0 := by
                            have hassoc :
                                ((loc ++ [Seg.field "questions", Seg.idx i]) ++
                                  [Seg.field "cases", Seg.idx k]) ++ pathLoc p =
                                loc ++ pathLoc ((i, k) :: p) := by
                              simp [pathLoc]
                            rw [hassoc]
                            exact hx
                          have hqs : x ∈ refEvents qs
                              ((loc ++ [Seg.field "questions", Seg.idx i]) ++
                                [Seg.field "cases", Seg.idx k]) 0 :=
                            ih qs _ sub h3 x hx2
                          have hcase : x ∈ caseRefs cs
                              (loc ++ [Seg.field "questions", Seg.idx i]) 0 := by
                            apply mem_caseRefs_of_get cs _ 0 k v qs hck x
                            simpa using hqs
                          have hnode : x ∈ nodeRefs
                              (Node.switch (Switch.mk sw sid cs))
                              (loc ++ [Seg.field "questions", Seg.idx i]) := by
                            simp only [nodeRefs]
                            exact hcase
                          apply mem_refEvents_of_get nodes loc 0 i _ hni x
                          simpa using hnode

/-- C5: locations are computed as the source computes them.  Along any
descent path `p` (each step entering case `k` of the Switch at index `i`,
contributing `["questions", i, "cases", k]` to the prefix), the element at
index `j` of the reached sequence lives at `pathLoc p ++ ["questions", j]`:
a Question there declares its identifier at that location (the duplicate
location appends `"id"` via `dupViolation`), its `next_question` reference
event carries that location plus `["next_question"]`, the `goto` of its
answer at index `j2` carries plus `["answers", j2, "goto"]`, and a Switch
there declares its truthy id at that location. -/
theorem C5_structural_locations (qn : Questionnaire) :
    ∀ (p : List (Nat × Nat)) (sub : List Node),
      subSeqAt qn.questions p = some sub →
      (∀ (j : Nat) (q : Question), sub[j]? = some (.question q) →
        (⟨pathLoc p ++ [Seg.field "questions", Seg.idx j], effectiveId q,
            Node.question q⟩ : DeclEvent) ∈ declEvents qn.questions [] 0 ∧
        (∀ nq, truthyStr q.next_question = some nq →
          (pathLoc p ++ [Seg.field "questions", Seg.idx j,
              Seg.field "next_question"], nq) ∈
            (walk qn.questions [] 0 ⟨[], [], []⟩).refs) ∧
        (∀ (j2 : Nat) (a : Answer) (g : String),
          q.answers[j2]? = some a → truthyStr a.goto = some g →
          (pathLoc p ++ [Seg.field "questions", Seg.idx j, Seg.field "answers",
              Seg.idx j2, Seg.field "goto"], g) ∈
            (walk qn.questions [] 0 ⟨[], [], []⟩).refs)) ∧
      (∀ (j : Nat) (sw : String) (oid : Option String) (cs : List Case)
          (s0 : String),
        sub[j]? = some (.switch (.mk sw oid cs)) → truthyStr oid = some s0 →
        (⟨pathLoc p ++ [Seg.field "questions", Seg.idx j], s0,
            Node.switch (Switch.mk sw oid cs)⟩ : DeclEvent) ∈
          declEvents qn.questions [] 0) := by
  intro p sub hsub
  have hrefs : (walk qn.questions [] 0 ⟨[], [], []⟩).refs =
      refEvents qn.questions [] 0 := by
    rw [walk_spec]
    simp [specState]
  refine ⟨?_, ?_⟩
  · intro j q hj
    refine ⟨?_, ?_, ?_⟩
    · apply subSeq_decls_lift p qn.questions [] sub hsub
      apply mem_declEvents_of_get sub ([] ++ pathLoc p) 0 j _ hj
      simp [nodeDecls]
    · intro nq hnq
      rw [hrefs]
      apply subSeq_refs_lift p qn.questions [] sub hsub
      apply mem_refEvents_of_get sub ([] ++ pathLoc p) 0 j _ hj
      simp only [nodeRefs, questionRefs, hnq]
      apply List.mem_append_left
      simp
    · intro j2 a g hja hg
      rw [hrefs]
      apply subSeq_refs_lift p qn.questions [] sub hsub
      apply mem_refEvents_of_get sub ([] ++ pathLoc p) 0 j _ hj
      simp only [nodeRefs, questionRefs]
      apply List.mem_append_right
      have hmem := mem_answerRefs_of_get q.answers
        (([] ++ pathLoc p) ++ [Seg.field "questions", Seg.idx (0 + j)])
        0 j2 a g hja hg
      simpa using hmem
  · intro j sw oid cs s0 hj hs0
    apply subSeq_decls_lift p qn.questions [] sub hsub
    apply mem_declEvents_of_get sub ([] ++ pathLoc p) 0 j _ hj
    simp only [nodeDecls, hs0]
    apply List.mem_append_left
    simp

theorem C5_structural_locations_witness :
    subSeqAt sampleD.questions [(1, 0)] =
      some [Node.question { question := "inner", answers := [] }] ∧
    (⟨pathLoc [(1, 0)] ++ [Seg.field "questions", Seg.idx 0],
        effectiveId { question := "inner", answers := [] },
        Node.question { question := "inner", answers := [] }⟩ : DeclEvent) ∈
      declEvents sampleD.questions [] 0 :=
  ⟨rfl,
    ((C5_structural_locations sampleD [(1, 0)]
        [Node.question { question := "inner", answers := [] }] rfl).1 0
      { question := "inner", answers := [] } rfl).1⟩

/-! ## C7: fallback to the question text as implicit identifier -/

/-- The location of an element inside the question list reached by a
descent path determines the path and the index: path locations are
injective. -/
theorem pathLoc_inj : ∀ (p1 p2 : List (Nat × Nat)) (i1 i2 : Nat),
    pathLoc p1 ++ [Seg.field "questions", Seg.idx i1] =
      pathLoc p2 ++ [Seg.field "questions", Seg.idx i2] →
    p1 = p2 ∧ i1 = i2 := by
  intro p1
  induction p1 with
  | nil =>
      intro p2 i1 i2 h
      cases p2 with
      | nil =>
          simp [pathLoc] at h
          exact ⟨rfl, h⟩
      | cons ik p2t =>
          obtain ⟨i, k⟩ := ik
          have hlen := congrArg List.length h
          simp [pathLoc] at hlen
  | cons ik p1t ih =>
      intro p2 i1 i2 h
      obtain ⟨i, k⟩ := ik
      cases p2 with
      | nil =>
          have hlen := congrArg List.length h
          simp [pathLoc] at hlen
      | cons jk p2t =>
          obtain ⟨j, k2⟩ := jk
          simp only [pathLoc, List.cons_append, List.nil_append,
            List.append_assoc] at h
          injection h with h1 h
          injection h with h2 h
          injection h2 with hi
          injection h with h3 h
          injection h with h4 h5
          injection h4 with hk
          obtain ⟨hp, hi2⟩ := ih p2t i1 i2 h5
          subst hi
          subst hk
          subst hp
          exact ⟨rfl, hi2⟩

/-- C7: a Question without a truthy explicit id is identified by its
literal question text, and two distinct explicit-id-free Questions with
the same question text, located anywhere in the tree (in the root list or
nested in Switch cases, at distinct positions), trigger a
`DuplicateIdentifier` violation exactly as an explicit duplicate would. -/
theorem C7_question_text_fallback :
    (∀ q : Question, truthyStr q.id = none → effectiveId q = q.question) ∧
    (∀ (qn : Questionnaire) (p1 p2 : List (Nat × Nat)) (sub1 sub2 : List Node)
        (i j : Nat) (q1 q2 : Question),
      subSeqAt qn.questions p1 = some sub1 →
      subSeqAt qn.questions p2 = some sub2 →
      sub1[i]? = some (.question q1) →
      sub2[j]? = some (.question q2) →
      (p1, i) ≠ (p2, j) →
      q1.id = none → q2.id = none → q1.question = q2.question →
      ∃ l, Violation.duplicate_id l q1.question ∈ (runValidation qn).1) := by
  constructor
  · intro q h
    simp [effectiveId, h]
  · intro qn p1 p2 sub1 sub2 i j q1 q2 hs1 hs2 hg1 hg2 hne hid1 hid2 hqq
    have he1 : (⟨pathLoc p1 ++ [Seg.field "questions", Seg.idx i], q1.question,
        Node.question q1⟩ : DeclEvent) ∈ declEvents qn.questions [] 0 := by
      apply subSeq_decls_lift p1 qn.questions [] sub1 hs1
      apply mem_declEvents_of_get sub1 ([] ++ pathLoc p1) 0 i _ hg1
      simp [nodeDecls, effectiveId, truthyStr, hid1]
    have he2 : (⟨pathLoc p2 ++ [Seg.field "questions", Seg.idx j], q1.question,
        Node.question q2⟩ : DeclEvent) ∈ declEvents qn.questions [] 0 := by
      apply subSeq_decls_lift p2 qn.questions [] sub2 hs2
      apply mem_declEvents_of_get sub2 ([] ++ pathLoc p2) 0 j _ hg2
      simp [nodeDecls, effectiveId, truthyStr, hid2, hqq]
    have hneev : (⟨pathLoc p1 ++ [Seg.field "questions", Seg.idx i],
        q1.question, Node.question q1⟩ : DeclEvent) ≠
        ⟨pathLoc p2 ++ [Seg.field "questions", Seg.idx j], q1.question,
          Node.question q2⟩ := by
      intro hcontra
      have hloc := congrArg DeclEvent.loc hcontra
      obtain ⟨hp, hi⟩ := pathLoc_inj p1 p2 i j hloc
      exact hne (by rw [hp, hi])
    have h2 : 2 ≤ ((declEvents qn.questions [] 0).filter
        (fun e => e.key = q1.question)).length :=
      two_le_filter_length _ _ _ _ he1 he2 hneev (by simp) (by simp)
    have hdup := dupOccs_filter (declEvents qn.questions [] 0) [] q1.question
    rw [if_neg (by simp)] at hdup
    have htailne : ((declEvents qn.questions [] 0).filter
        (fun e => e.key = q1.question)).tail ≠ [] := by
      intro hnil
      have hlen := congrArg List.length hnil
      simp [List.length_tail] at hlen
      omega
    have hocc : (dupOccs [] (declEvents qn.questions [] 0)).filter
        (fun e => e.key = q1.question) ≠ [] := by
      rw [hdup]
      exact htailne
    obtain ⟨e, he⟩ := List.exists_mem_of_ne_nil _ hocc
    have hef := List.mem_filter.mp he
    refine ⟨e.loc ++ [Seg.field "id"], ?_⟩
    rw [runValidation_errors]
    apply List.mem_append_left
    have hkey : e.key = q1.question := by simpa using hef.2
    have hmemmap : dupViolation e ∈
        (dupOccs [] (declEvents qn.questions [] 0)).map dupViolation :=
      List.mem_map_of_mem _ hef.1
    simpa [dupViolation, hkey] using hmemmap

/-- Two Questions with no explicit ids and identical question text, one in
the root list and one nested inside a Switch case. -/
def sampleDupNested : Questionnaire :=
  { initial_template := "t",
    questions :=
      [ Node.question { question := "same", answers := [] },
        Node.switch
          (Switch.mk "v" none
            [ Case.mk (some 0)
                [ Node.question { question := "same", answers := [] } ] ]) ] }

theorem C7_question_text_fallback_witness :
    effectiveId { question := "x", answers := [] } = "x" ∧
    ∃ l, Violation.duplicate_id l "same" ∈ (runValidation sampleDupNested).1 :=
  ⟨C7_question_text_fallback.1 { question := "x", answers := [] } rfl,
    C7_question_text_fallback.2 sampleDupNested [] [(1, 0)]
      sampleDupNested.questions
      [Node.question { question := "same", answers := [] }] 0 0
      { question := "same", answers := [] } { question := "same", answers := [] }
      rfl rfl rfl rfl (by decide) rfl rfl rfl⟩

/-! ## C8: the walk visits every node exactly once and collects all
events -/

mutual
/-- The pre-order visit trace of the walk: every Question and Switch node
with the location at which the walk processes it. -/
def visitTrace : List Node → List Seg → Nat → List (List Seg × Node)
  | [], _, _ => []
  | node :: rest, loc, i =>
      nodeTrace node (loc ++ [Seg.field "questions", Seg.idx i]) ++
        visitTrace rest loc (i + 1)

/-- The visit trace of one node: itself, then (for a Switch) the nodes
nested in its cases. -/
def nodeTrace : Node → List Seg → List (List Seg × Node)
  | .question q, node_loc => [(node_loc, .question q)]
  | .switch (.mk sw sid cs), node_loc =>
      (node_loc, .switch (.mk sw sid cs)) :: caseTrace cs node_loc 0

/-- The visit trace of the nodes nested in a case list. -/
def caseTrace : List Case → List Seg → Nat → List (List Seg × Node)
  | [], _, _ => []
  | .mk _ qs :: rest, node_loc, k =>
      visitTrace qs (node_loc ++ [Seg.field "cases", Seg.idx k]) 0 ++
        caseTrace rest node_loc (k + 1)
end

mutual
/-- The number of Question and Switch nodes in a node list, nested ones
included. -/
def countNodes : List Node → Nat
  | [] => 0
  | node :: rest => nodeCount node + countNodes rest

/-- The number of Question and Switch nodes in one node. -/
def nodeCount : Node → Nat
  | .question _ => 1
  | .switch (.mk _ _ cs) => 1 + caseCount cs

/-- The number of Question and Switch nodes nested in a case list. -/
def caseCount : List Case → Nat
  | [] => 0
  | .mk _ qs :: rest => countNodes qs + caseCount rest
end

/-- The declaration events a single visit of a node emits directly (not
counting nested visits). -/
def ownDecls : Node → List Seg → List DeclEvent
  | .question q, node_loc => [⟨node_loc, effectiveId q, .question q⟩]
  | .switch (.mk sw sid cs), node_loc =>
      match truthyStr sid with
      | some s0 => [⟨node_loc, s0, .switch (.mk sw sid cs)⟩]
      | none => []

/-- The reference events a single visit of a node emits directly. -/
def ownRefs : Node → List Seg → List (List Seg × String)
  | .question q, node_loc => questionRefs q node_loc
  | .switch _, _ => []

/-- Concatenation of the per-visit events over a visit trace. -/
def eventsConcat {α : Type} (f : List Seg × Node → List α) :
    List (List Seg × Node) → List α
  | [] => []
  | pr :: rest => f pr ++ eventsConcat f rest

theorem eventsConcat_append {α : Type} (f : List Seg × Node → List α)
    (a b : List (List Seg × Node)) :
    eventsConcat f (a ++ b) = eventsConcat f a ++ eventsConcat f b := by
  induction a with
  | nil => rfl
  | cons pr rest ih => simp [eventsConcat, ih]

mutual
theorem visitTrace_spec (nodes : List Node) (loc : List Seg) (i : Nat) :
    declEvents nodes loc i =
      eventsConcat (fun pr => ownDecls pr.2 pr.1) (visitTrace nodes loc i) ∧
    refEvents nodes loc i =
      eventsConcat (fun pr => ownRefs pr.2 pr.1) (visitTrace nodes loc i) ∧
    (visitTrace nodes loc i).length = countNodes nodes := by
  cases nodes with
  | nil => exact ⟨rfl, rfl, rfl⟩
  | cons node rest =>
      obtain ⟨h1, h2, h3⟩ :=
        nodeTrace_spec node (loc ++ [Seg.field "questions", Seg.idx i])
      obtain ⟨h4, h5, h6⟩ := visitTrace_spec rest loc (i + 1)
      refine ⟨?_, ?_, ?_⟩
      · simp only [declEvents, visitTrace, eventsConcat_append, h1, h4]
      · simp only [refEvents, visitTrace, eventsConcat_append, h2, h5]
      · simp only [visitTrace, List.length_append, h3, h6, countNodes]
termination_by sizeOf nodes

theorem nodeTrace_spec (node : Node) (nl : List Seg) :
    nodeDecls node nl =
      eventsConcat (fun pr => ownDecls pr.2 pr.1) (nodeTrace node nl) ∧
    nodeRefs node nl =
      eventsConcat (fun pr => ownRefs pr.2 pr.1) (nodeTrace node nl) ∧
    (nodeTrace node nl).length = nodeCount node := by
  cases node with
  | question q =>
      refine ⟨?_, ?_, ?_⟩ <;>
        simp [nodeDecls, nodeRefs, nodeTrace, ownDecls, ownRefs, eventsConcat,
          nodeCount]
  | switch s =>
      cases s with
      | mk sw sid cs =>
          obtain ⟨h1, h2, h3⟩ := caseTrace_spec cs nl 0
          refine ⟨?_, ?_, ?_⟩
          · simp only [nodeDecls, nodeTrace, eventsConcat, ownDecls, h1]
          · simp only [nodeRefs, nodeTrace, eventsConcat, ownRefs, h2]
            simp
          · simp only [nodeTrace, List.length_cons, h3, nodeCount]
            omega
termination_by sizeOf node

theorem caseTrace_spec (cs : List Case) (nl : List Seg) (k : Nat) :
    caseDecls cs nl k =
      eventsConcat (fun pr => ownDecls pr.2 pr.1) (caseTrace cs nl k) ∧
    caseRefs cs nl k =
      eventsConcat (fun pr => ownRefs pr.2 pr.1) (caseTrace cs nl k) ∧
    (caseTrace cs nl k).length = caseCount cs := by
  cases cs with
  | nil => exact ⟨rfl, rfl, rfl⟩
  | cons c rest =>
      cases c with
      | mk v qs =>
          obtain ⟨h1, h2, h3⟩ :=
            visitTrace_spec qs (nl ++ [Seg.field "cases", Seg.idx k]) 0
          obtain ⟨h4, h5, h6⟩ := caseTrace_spec rest nl (k + 1)
          refine ⟨?_, ?_, ?_⟩
          · simp only [caseDecls, caseTrace, eventsConcat_append, h1, h4]
          · simp only [caseRefs, caseTrace, eventsConcat_append, h2, h5]
          · simp only [caseTrace, List.length_append, h3, h6, caseCount]
termination_by sizeOf cs
end

mutual
theorem visitTrace_shape (nodes : List Node) (loc : List Seg) (i : Nat) :
    ∀ pr ∈ visitTrace nodes loc i, ∃ j r, i ≤ j ∧
      pr.1 = loc ++ Seg.field "questions" :: Seg.idx j :: r := by
  cases nodes with
  | nil =>
      intro pr h
      simp [visitTrace] at h
  | cons node rest =>
      intro pr h
      simp only [visitTrace] at h
      rcases List.mem_append.mp h with h1 | h2
      · rcases nodeTrace_shape node
            (loc ++ [Seg.field "questions", Seg.idx i]) pr h1 with heq | ⟨r, heq⟩
        · exact ⟨i, [], le_refl i, by rw [heq]⟩
        · refine ⟨i, Seg.field "cases" :: r, le_refl i, ?_⟩
          rw [heq]
          simp
      · rcases visitTrace_shape rest loc (i + 1) pr h2 with ⟨j, r, hij, heq⟩
        exact ⟨j, r, by omega, heq⟩
termination_by sizeOf nodes

theorem nodeTrace_shape (node : Node) (nl : List Seg) :
    ∀ pr ∈ nodeTrace node nl,
      pr.1 = nl ∨ ∃ r, pr.1 = nl ++ Seg.field "cases" :: r := by
  cases node with
  | question q =>
      intro pr h
      simp only [nodeTrace, List.mem_singleton] at h
      left
      rw [h]
  | switch s =>
      cases s with
      | mk sw sid cs =>
          intro pr h
          simp only [nodeTrace] at h
          rcases List.mem_cons.mp h with heq | h2
          · left
            rw [heq]
          · right
            rcases caseTrace_shape cs nl 0 pr h2 with ⟨k2, r, _, heq⟩
            exact ⟨Seg.idx k2 :: r, heq⟩
termination_by sizeOf node

theorem caseTrace_shape (cs : List Case) (nl : List Seg) (k : Nat) :
    ∀ pr ∈ caseTrace cs nl k, ∃ k2 r, k ≤ k2 ∧
      pr.1 = nl ++ Seg.field "cases" :: Seg.idx k2 :: r := by
  cases cs with
  | nil =>
      intro pr h
      simp [caseTrace] at h
  | cons c rest =>
      cases c with
      | mk v qs =>
          intro pr h
          simp only [caseTrace] at h
          rcases List.mem_append.mp h with h1 | h2
          · rcases visitTrace_shape qs (nl ++ [Seg.field "cases", Seg.idx k]) 0
                pr h1 with ⟨j, r, _, heq⟩
            refine ⟨k, Seg.field "questions" :: Seg.idx j :: r, le_refl k, ?_⟩
            rw [heq]
            simp
          · rcases caseTrace_shape rest nl (k + 1) pr h2 with ⟨k2, r, hk, heq⟩
            exact ⟨k2, r, by omega, heq⟩
termination_by sizeOf cs
end

theorem append_cons_cons_ne (pre : List Seg) (a b b2 : Seg) (r r2 : List Seg)
    (h : b ≠ b2) : pre ++ a :: b :: r ≠ pre ++ a :: b2 :: r2 := by
  intro hcontra
  have h2 := List.append_cancel_left hcontra
  injection h2 with ha hrest
  injection hrest with hb _
  exact h hb

theorem ne_append_cons (nl : List Seg) (a : Seg) (r : List Seg) :
    nl ≠ nl ++ a :: r := by
  intro h
  have h2 := congrArg List.length h
  simp at h2

mutual
theorem visitTrace_nodup (nodes : List Node) (loc : List Seg) (i : Nat) :
    ((visitTrace nodes loc i).map Prod.fst).Nodup := by
  cases nodes with
  | nil => simp [visitTrace]
  | cons node rest =>
      simp only [visitTrace, List.map_append]
      apply List.Nodup.append
        (nodeTrace_nodup node (loc ++ [Seg.field "questions", Seg.idx i]))
        (visitTrace_nodup rest loc (i + 1))
      intro x hx hy
      rcases List.mem_map.mp hx with ⟨pr1, hpr1, hx1⟩
      rcases List.mem_map.mp hy with ⟨pr2, hpr2, hx2⟩
      rcases visitTrace_shape rest loc (i + 1) pr2 hpr2 with ⟨j, r2, hij, heqB⟩
      have hne : Seg.idx i ≠ Seg.idx j := by
        intro hc
        injection hc with hc2
        omega
      rcases nodeTrace_shape node (loc ++ [Seg.field "questions", Seg.idx i])
          pr1 hpr1 with heq1 | ⟨r1, heq1⟩
      · have hEq : loc ++ Seg.field "questions" :: Seg.idx i :: ([] : List Seg) =
            loc ++ Seg.field "questions" :: Seg.idx j :: r2 := by
          rw [← heq1, ← heqB, hx1, hx2]
        exact append_cons_cons_ne loc (Seg.field "questions") (Seg.idx i)
          (Seg.idx j) [] r2 hne hEq
      · have heq1b : pr1.1 = loc ++ Seg.field "questions" :: Seg.idx i ::
            (Seg.field "cases" :: r1) := by
          rw [heq1]
          simp
        have hEq : loc ++ Seg.field "questions" :: Seg.idx i ::
            (Seg.field "cases" :: r1) =
            loc ++ Seg.field "questions" :: Seg.idx j :: r2 := by
          rw [← heq1b, ← heqB, hx1, hx2]
        exact append_cons_cons_ne loc (Seg.field "questions") (Seg.idx i)
          (Seg.idx j) (Seg.field "cases" :: r1) r2 hne hEq
termination_by sizeOf nodes

theorem nodeTrace_nodup (node : Node) (nl : List Seg) :
    ((nodeTrace node nl).map Prod.fst).Nodup := by
  cases node with
  | question q => simp [nodeTrace]
  | switch s =>
      cases s with
      | mk sw sid cs =>
          simp only [nodeTrace, List.map_cons]
          rw [List.nodup_cons]
          constructor
          · intro hmem
            rcases List.mem_map.mp hmem with ⟨pr, hpr, hfst⟩
            rcases caseTrace_shape cs nl 0 pr hpr with ⟨k2, r, _, heq⟩
            exact ne_append_cons nl (Seg.field "cases") (Seg.idx k2 :: r)
              (heq.symm.trans hfst).symm
          · exact caseTrace_nodup cs nl 0
termination_by sizeOf node

theorem caseTrace_nodup (cs : List Case) (nl : List Seg) (k : Nat) :
    ((caseTrace cs nl k).map Prod.fst).Nodup := by
  cases cs with
  | nil => simp [caseTrace]
  | cons c rest =>
      cases c with
      | mk v qs =>
          simp only [caseTrace, List.map_append]
          apply List.Nodup.append
            (visitTrace_nodup qs (nl ++ [Seg.field "cases", Seg.idx k]) 0)
            (caseTrace_nodup rest nl (k + 1))
          intro x hx hy
          rcases List.mem_map.mp hx with ⟨pr1, hpr1, hx1⟩
          rcases List.mem_map.mp hy with ⟨pr2, hpr2, hx2⟩
          rcases visitTrace_shape qs (nl ++ [Seg.field "cases", Seg.idx k]) 0
              pr1 hpr1 with ⟨j, r1, _, heq1⟩
          rcases caseTrace_shape rest nl (k + 1) pr2 hpr2 with ⟨k2, r2, hk2, heq2⟩
          have hne : Seg.idx k ≠ Seg.idx k2 := by
            intro hc
            injection hc with hc2
            omega
          have heq1b : pr1.1 = nl ++ Seg.field "cases" :: Seg.idx k ::
              (Seg.field "questions" :: Seg.idx j :: r1) := by
            rw [heq1]
            simp
          have hEq : nl ++ Seg.field "cases" :: Seg.idx k ::
              (Seg.field "questions" :: Seg.idx j :: r1) =
              nl ++ Seg.field "cases" :: Seg.idx k2 :: r2 := by
            rw [← heq1b, ← heq2, hx1, hx2]
          exact append_cons_cons_ne nl (Seg.field "cases") (Seg.idx k)
            (Seg.idx k2) _ _ hne hEq
termination_by sizeOf cs
end

/-- C8: the walk is total and fully determined by the visit trace: for any
starting state it equals the registry fold over all declaration events with
all reference events appended (so it never stops at a duplicate); the
declaration and reference events are exactly the concatenation of each
visited node own events; the trace visits `countNodes` many nodes, at
pairwise distinct locations — every node exactly once. -/
theorem C8_walk_terminates_visits_once (nodes : List Node) (loc : List Seg)
    (i : Nat) (st : WalkState) :
    walk nodes loc i st =
      specState st (declEvents nodes loc i) (refEvents nodes loc i) ∧
    declEvents nodes loc i =
      eventsConcat (fun pr => ownDecls pr.2 pr.1) (visitTrace nodes loc i) ∧
    refEvents nodes loc i =
      eventsConcat (fun pr => ownRefs pr.2 pr.1) (visitTrace nodes loc i) ∧
    (visitTrace nodes loc i).length = countNodes nodes ∧
    ((visitTrace nodes loc i).map Prod.fst).Nodup :=
  ⟨walk_spec nodes loc i st, (visitTrace_spec nodes loc i).1,
    (visitTrace_spec nodes loc i).2.1, (visitTrace_spec nodes loc i).2.2,
    visitTrace_nodup nodes loc i⟩
